import Mathlib

/-!
Verification development for the `bunny` nearest-park pipeline.

The repository ships two variants of `main.go`: a sequential one and a
concurrent one (fixed pool of 30 workers, a buffered work queue of
dispensaries, a buffered results channel of `*ParkDistance`, a wait group
as completion barrier, and a single aggregator goroutine).

Shallow embedding choices:
* `float64` distances are modelled by `ℚ` (only ordering and strict
  comparison of distances matter to the algorithm).
* the fallible geometry call `store.Geometry.Distance(park.Geometry)` is a
  parameter `dist : D → P → Option ℚ` (`none` models a non-nil `err`).
* a Go nil `*ParkDistance` is `Option.none`; the nil-pointer dereferences
  that the Go code can perform are made explicit with `Except Unit`
  (`Except.error ()` models a runtime panic).
* a worker's sequence of sends on the results channel is a `List`; the
  sequence of values the aggregator receives is any interleaving of the
  workers' send sequences, hence any permutation of the concatenation of
  those sequences (each value is received exactly once, order across
  workers unspecified).
-/

namespace Bunny

/-- Worker-pool size, from `const workers int = 30` in the concurrent `main.go`. -/
def workers : Nat := 30

/-- A park together with its distance from a dispensary (`type ParkDistance struct`
in `main.go`); the store and park identities are abstract types `D` and `P`. -/
structure ParkDistance (D P : Type) where
  store : D
  park : P
  distance : ℚ
deriving DecidableEq

/-- The inner target loop shared by the sequential `nearestPark` and the
worker `nearestParks` (`for _, park := range parks { ... }`): `nearest` is the
running best pointer, the second component collects, in encounter order, the
parks whose distance computation failed (each such failure is printed by the
Go code; we record the park that was being compared).  A successful comparison
replaces the running best only when `nearest` is nil or the new distance is
strictly smaller. -/
def scanGo {D P : Type} (dist : D → P → Option ℚ) (store : D) :
    Option (ParkDistance D P) → List P → Option (ParkDistance D P) × List P
  | nearest, [] => (nearest, [])
  | nearest, park :: rest =>
    match dist store park with
    | some d =>
      match nearest with
      | none => scanGo dist store (some ⟨store, park, d⟩) rest
      | some n =>
        if d < n.distance then scanGo dist store (some ⟨store, park, d⟩) rest
        else scanGo dist store (some n) rest
    | none =>
      let r := scanGo dist store nearest rest
      (r.1, park :: r.2)

/-- The value a worker holds in `nearest` after scanning the whole park list
for one store (`nil` when no comparison succeeded). -/
def scanParks {D P : Type} (dist : D → P → Option ℚ) (store : D) (parks : List P) :
    Option (ParkDistance D P) :=
  (scanGo dist store none parks).1

/-- The parks whose distance computation failed while scanning for `store`,
in encounter order (one logged error per failure, `fmt.Println(err)`). -/
def scanErrors {D P : Type} (dist : D → P → Option ℚ) (store : D) (parks : List P) :
    List P :=
  (scanGo dist store none parks).2

/-- The successful comparisons for one store, in target order: each park the
geometry call succeeds on, paired with the returned distance. -/
def successes {D P : Type} (dist : D → P → Option ℚ) (store : D) (parks : List P) :
    List (P × ℚ) :=
  parks.filterMap (fun p => (dist store p).map (fun d => (p, d)))

/-- Repackage a successful comparison as the `ParkDistance` record the worker
builds for `store`. -/
def withStore {D P : Type} (store : D) (x : P × ℚ) : ParkDistance D P :=
  ⟨store, x.1, x.2⟩

/-- Generic running-best selection with strict replacement: the accumulator is
replaced only when the new element's measure is strictly smaller, so the first
element attaining the minimum wins ties.  Both the worker's inner loop (over
successful comparisons) and the aggregator's loop (over candidate pairs)
instantiate this shape. -/
def pickGo {α : Type} (f : α → ℚ) : Option α → List α → Option α
  | acc, [] => acc
  | none, x :: xs => pickGo f (some x) xs
  | some b, x :: xs => pickGo f (if f x < f b then some x else some b) xs

/-- One worker's whole life (`for store := range input`): for every store it
consumes it performs the full park scan and then unconditionally executes
`output <- nearest`, so it sends exactly one value — possibly nil — per
consumed store.  The list is the sequence of values sent on the results
channel, in order. -/
def nearestParksWorker {D P : Type} (dist : D → P → Option ℚ) (parks : List P)
    (inputs : List D) : List (Option (ParkDistance D P)) :=
  inputs.map (fun s => scanParks dist s parks)

/-- The aggregator loop of `nearestPair` (and, with the per-store scan results
as input, the accumulation loop of the sequential `main`): Go evaluates
`nearest == nil || parkDistance.distance < nearest.distance` left to right, so
when the running best is nil the incoming value (even nil) becomes the best,
and otherwise a nil incoming value makes `parkDistance.distance` dereference a
nil pointer — modelled as `Except.error ()`. -/
def aggRun {D P : Type} :
    Option (ParkDistance D P) → List (Option (ParkDistance D P)) →
      Except Unit (Option (ParkDistance D P))
  | acc, [] => Except.ok acc
  | none, x :: xs => aggRun x xs
  | some _, none :: _ => Except.error ()
  | some n, some pd :: xs =>
    aggRun (if pd.distance < n.distance then some pd else some n) xs

/-- The aggregator of the concurrent pipeline, run on the full sequence of
values it receives from the results channel; its `Except.ok` value is the one
value it sends on its `result` channel. -/
def nearestPairRun {D P : Type} (received : List (Option (ParkDistance D P))) :
    Except Unit (Option (ParkDistance D P)) :=
  aggRun none received

/-- The sequential reference `main` (lines 210–231 of the sequential
variant): for each store in order it runs the full park scan and folds the
per-store results with exactly the aggregator's strict-replacement test
(`if nearest == nil || distanceForStore.distance < nearest.distance`). -/
def sequentialMain {D P : Type} (dist : D → P → Option ℚ) (parks : List P)
    (stores : List D) : Except Unit (Option (ParkDistance D P)) :=
  aggRun none (stores.map (fun s => scanParks dist s parks))

/-- The final step of `main`: `printStore(nearest.store)` followed by printing
`nearest.park.Name` and `nearest.distance`.  When the aggregator published nil
("no result") this dereferences a nil pointer; otherwise it outputs the
store, park and distance of the final answer. -/
def finalOutput {D P : Type} : Option (ParkDistance D P) → Except Unit (D × P × ℚ)
  | none => Except.error ()
  | some pd => Except.ok (pd.store, pd.park, pd.distance)

/-- Distance projection of a pipeline outcome: the final answer's distance
(`none` for the nil "no result" answer), or the propagated panic. -/
def resultDistance {D P : Type} :
    Except Unit (Option (ParkDistance D P)) → Except Unit (Option ℚ)
  | Except.error e => Except.error e
  | Except.ok none => Except.ok none
  | Except.ok (some pd) => Except.ok (some pd.distance)

/-- Number of worker goroutines `main` launches: the loop
`for i := 0; i < workers; i++ { wg.Add(1); go nearestParks(...) }` runs
`workers` times whatever the store list is. -/
def workersStarted {D : Type} (_stores : List D) : Nat := workers

/-- Capacity of the work-queue channel:
`workQueue := make(chan Dispensary, storeCount)` with `storeCount = len(stores)`. -/
def workQueueCapacity {D : Type} (stores : List D) : Nat := stores.length

/-- The orchestrator's enqueue loop under the worst case that no worker has
consumed anything yet: each send succeeds only if the buffer has room
(`buf.length < cap`), otherwise the send would block (`none`).  Consumption by
workers only frees space, so success here implies the real loop never blocks. -/
def enqueueAll {D : Type} (cap : Nat) : List D → List D → Option (List D)
  | buf, [] => some buf
  | buf, x :: xs =>
    if buf.length < cap then enqueueAll cap (buf ++ [x]) xs else none

/-- Events of the synchronization skeleton of the concurrent `main`, for a
pool of `n` workers: a worker's send on the results channel, a worker's
`wg.Done()`, and the orchestrator's `close(results)`. -/
inductive WEvent (n : Nat) where
  | send (w : Fin n)
  | done (w : Fin n)
  | closeResults
deriving DecidableEq

/-- Traces the Go synchronization primitives can produce.  The three
components record, in order: `defer wg.Done()` runs exactly once per worker,
when `nearestParks` returns (so exactly one `done` event per worker); a
worker's sends all happen inside its range loop, before the deferred
`wg.Done()` (so every `send w` precedes the `done w`); and `main` executes
`close(results)` only after `wg.Wait()` returns, which is after every
worker's `wg.Done()` (so every `done` precedes `closeResults`). -/
def ValidTrace {n : Nat} (tr : List (WEvent n)) : Prop :=
  (∀ w : Fin n, ∃ i : Fin tr.length, tr.get i = WEvent.done w ∧
    ∀ j : Fin tr.length, tr.get j = WEvent.done w → j = i)
  ∧ (∀ (i j : Fin tr.length) (w : Fin n),
      tr.get i = WEvent.send w → tr.get j = WEvent.done w → i < j)
  ∧ (∀ (i j : Fin tr.length) (w : Fin n),
      tr.get i = WEvent.closeResults → tr.get j = WEvent.done w → j < i)

/-- Distance stub that fails for every pair (geometry engine always errors). -/
def failDist : ℕ → ℕ → Option ℚ := fun _ _ => none

/-- Distance stub for which store 0 always fails and every other store is at
distance 1 from every park. -/
def distOneFails : ℕ → ℕ → Option ℚ := fun s _ => if s = 0 then none else some 1

/-- Total distance stub: store 0 at distance 1, every other store at 2. -/
def distTotal : ℕ → ℕ → Option ℚ := fun s _ => if s = 0 then some 1 else some 2

/-- Distance stub with a tie: park 0 at distance 5, every other park at 3. -/
def distTie : ℕ → ℕ → Option ℚ := fun _ p => if p = 0 then some 5 else some 3

/-- Distance stub failing exactly at park 1; park 0 at distance 2, others at 4. -/
def distSkip : ℕ → ℕ → Option ℚ :=
  fun _ p => if p = 1 then none else if p = 0 then some 2 else some 4

/-- Synchronization trace of a one-worker run: its single send, its done
signal, then the close of the results channel. -/
def trace0 : List (WEvent 1) := [WEvent.send 0, WEvent.done 0, WEvent.closeResults]

/-- Index of the send event in `trace0`. -/
def idx0 : Fin trace0.length := ⟨0, Nat.succ_pos 2⟩

/-- Index of the close event in `trace0`. -/
def idx2 : Fin trace0.length := ⟨2, Nat.lt_succ_self 2⟩

/-- Equality of pipeline outcomes is decidable (needed to evaluate the model
on concrete inputs). -/
instance exceptDecEq {ε α : Type} [DecidableEq ε] [DecidableEq α] :
    DecidableEq (Except ε α) := fun x y =>
  match x, y with
  | Except.ok a, Except.ok b =>
    if h : a = b then isTrue (by rw [h]) else
      isFalse (by intro hh; injection hh with hh'; exact h hh')
  | Except.error a, Except.error b =>
    if h : a = b then isTrue (by rw [h]) else
      isFalse (by intro hh; injection hh with hh'; exact h hh')
  | Except.ok _, Except.error _ => isFalse (by intro hh; exact Except.noConfusion hh)
  | Except.error _, Except.ok _ => isFalse (by intro hh; exact Except.noConfusion hh)

/-- Error-side of the scan: the logged parks are exactly the parks whose
distance computation fails, in encounter order, independently of the running
best. -/
theorem scanGo_snd {D P : Type} (dist : D → P → Option ℚ) (store : D) :
    ∀ (l : List P) (acc : Option (ParkDistance D P)),
      (scanGo dist store acc l).2 = l.filter (fun p => (dist store p).isNone) := by
  intro l
  induction l with
  | nil => intro acc; rfl
  | cons park rest ih =>
    intro acc
    cases hd : dist store park with
    | some d =>
      cases acc with
      | none => simpa [scanGo, hd, List.filter_cons] using ih _
      | some n =>
        by_cases hlt : d < n.distance <;>
          simpa [scanGo, hd, hlt, List.filter_cons] using ih _
    | none => simpa [scanGo, hd, List.filter_cons] using ih _

/-- Result-side of the scan: the running best over the park list is the
strict-replacement selection over the successful comparisons only. -/
theorem scanGo_fst {D P : Type} (dist : D → P → Option ℚ) (store : D) :
    ∀ (l : List P) (acc : Option (P × ℚ)),
      (scanGo dist store (acc.map (withStore store)) l).1
        = (pickGo Prod.snd acc (successes dist store l)).map (withStore store) := by
  intro l
  induction l with
  | nil => intro acc; cases acc <;> rfl
  | cons park rest ih =>
    intro acc
    cases hd : dist store park with
    | none =>
      cases acc with
      | none => simpa [scanGo, hd, successes, List.filterMap_cons] using ih none
      | some b => simpa [scanGo, hd, successes, List.filterMap_cons, withStore] using ih (some b)
    | some d =>
      cases acc with
      | none =>
        simpa [scanGo, hd, successes, List.filterMap_cons, pickGo, withStore]
          using ih (some (park, d))
      | some b =>
        by_cases hlt : d < b.2
        · simpa [scanGo, hd, successes, List.filterMap_cons, pickGo, withStore, hlt]
            using ih (some (park, d))
        · simpa [scanGo, hd, successes, List.filterMap_cons, pickGo, withStore, hlt]
            using ih (some b)

/-- The worker's per-store result is the first-strict-minimum selection over
the successful comparisons, tagged with the store. -/
theorem scanParks_eq_pick {D P : Type} (dist : D → P → Option ℚ) (store : D) (parks : List P) :
    scanParks dist store parks
      = (pickGo Prod.snd none (successes dist store parks)).map (withStore store) := by
  have h := scanGo_fst dist store parks none
  simpa [scanParks] using h

/-- Selection starting from a non-empty running best never returns nil. -/
theorem pickGo_some_ne_none {α : Type} (f : α → ℚ) :
    ∀ (l : List α) (b : α), pickGo f (some b) l ≠ none := by
  intro l
  induction l with
  | nil => intro b h; exact Option.noConfusion h
  | cons x xs ih =>
    intro b
    by_cases hc : f x < f b <;> simpa [pickGo, hc] using ih _

/-- Selection from a nil running best returns nil exactly on the empty list. -/
theorem pickGo_none_iff {α : Type} (f : α → ℚ) (l : List α) :
    pickGo f none l = none ↔ l = [] := by
  cases l with
  | nil => simp [pickGo]
  | cons x xs =>
    simp only [pickGo]
    constructor
    · intro h; exact absurd h (pickGo_some_ne_none f xs x)
    · intro h; exact List.noConfusion h

/-- The element `r` is the first minimum of `l` under measure `f`: everything
before it is strictly larger, everything after it is no smaller. -/
def IsFirstMin {α : Type} (f : α → ℚ) (l : List α) (r : α) : Prop :=
  ∃ l₁ l₂, l = l₁ ++ r :: l₂ ∧ (∀ x ∈ l₁, f r < f x) ∧ (∀ x ∈ l₂, f r ≤ f x)

/-- A first minimum of a cons is bounded by the head's measure. -/
theorem IsFirstMin.le_head {α : Type} {f : α → ℚ} {x : α} {xs : List α} {r : α}
    (h : IsFirstMin f (x :: xs) r) : f r ≤ f x := by
  obtain ⟨l₁, l₂, heq, h₁, _⟩ := h
  cases l₁ with
  | nil =>
    rw [List.nil_append] at heq
    injection heq with h1 _
    exact le_of_eq (by rw [h1])
  | cons a t =>
    have heq' : x :: xs = a :: (t ++ r :: l₂) := by rw [heq]; rfl
    injection heq' with h1 _
    rw [h1]
    exact le_of_lt (h₁ a (List.mem_cons_self a t))

/-- A first minimum is an element of the list. -/
theorem IsFirstMin.mem {α : Type} {f : α → ℚ} {l : List α} {r : α}
    (h : IsFirstMin f l r) : r ∈ l := by
  obtain ⟨l₁, l₂, heq, _, _⟩ := h
  rw [heq]
  exact List.mem_append_right l₁ (List.mem_cons_self r l₂)

/-- A first minimum is a lower bound of the whole list. -/
theorem IsFirstMin.le_all {α : Type} {f : α → ℚ} {l : List α} {r : α}
    (h : IsFirstMin f l r) : ∀ x ∈ l, f r ≤ f x := by
  obtain ⟨l₁, l₂, heq, h₁, h₂⟩ := h
  intro x hx
  rw [heq] at hx
  rcases List.mem_append.mp hx with hx₁ | hx₂
  · exact le_of_lt (h₁ x hx₁)
  · rcases List.mem_cons.mp hx₂ with hxr | hx₂
    · exact le_of_eq (by rw [hxr])
    · exact h₂ x hx₂

/-- Strict-replacement selection started at `b` returns the first minimum of
`b :: l`: a later element displaces the running best only when strictly
smaller, so on ties the earlier element survives. -/
theorem pickGo_some_first {α : Type} (f : α → ℚ) :
    ∀ (l : List α) (b r : α), pickGo f (some b) l = some r → IsFirstMin f (b :: l) r := by
  intro l
  induction l with
  | nil =>
    intro b r h
    injection h with h'
    refine ⟨[], [], ?_, ?_, ?_⟩
    · rw [h']
      rfl
    · intro x hx; cases hx
    · intro x hx; cases hx
  | cons x xs ih =>
    intro b r h
    simp only [pickGo] at h
    by_cases hlt : f x < f b
    · rw [if_pos hlt] at h
      have hfm := ih x r h
      have hle : f r ≤ f x := hfm.le_head
      obtain ⟨l₁, l₂, heq, h₁, h₂⟩ := hfm
      refine ⟨b :: l₁, l₂, ?_, ?_, h₂⟩
      · rw [heq]
        rfl
      · intro y hy
        rcases List.mem_cons.mp hy with hyb | hy₁
        · rw [hyb]; exact lt_of_le_of_lt hle hlt
        · exact h₁ y hy₁
    · rw [if_neg hlt] at h
      have hble : f b ≤ f x := le_of_not_lt hlt
      obtain ⟨l₁, l₂, heq, h₁, h₂⟩ := ih b r h
      cases l₁ with
      | nil =>
        rw [List.nil_append] at heq
        injection heq with hbr hxs
        refine ⟨[], x :: l₂, ?_, ?_, ?_⟩
        · rw [List.nil_append, ← hbr, hxs]
        · intro y hy; cases hy
        · intro y hy
          rcases List.mem_cons.mp hy with hyx | hy₂
          · rw [hyx]
            calc f r = f b := by rw [hbr]
              _ ≤ f x := hble
          · exact h₂ y hy₂
      | cons a t =>
        have heq' : b :: xs = a :: (t ++ r :: l₂) := by rw [heq]; rfl
        injection heq' with hba hxs
        have hrb : f r < f b := by
          have hra := h₁ a (List.mem_cons_self a t)
          rw [← hba] at hra
          exact hra
        refine ⟨b :: x :: t, l₂, ?_, ?_, h₂⟩
        · rw [hxs]
          rfl
        · intro y hy
          rcases List.mem_cons.mp hy with hyb | hy'
          · rw [hyb]; exact hrb
          · rcases List.mem_cons.mp hy' with hyx | hyt
            · rw [hyx]; exact lt_of_lt_of_le hrb hble
            · exact h₁ y (List.mem_cons_of_mem a hyt)

/-- The nil-started selection returns the first minimum of the list. -/
theorem pickGo_first {α : Type} (f : α → ℚ) (l : List α) (r : α)
    (h : pickGo f none l = some r) : IsFirstMin f l r := by
  cases l with
  | nil => exact absurd h (by simp [pickGo])
  | cons x xs => exact pickGo_some_first f xs x r h

/-- The selected minimum measure is invariant under permutation of the list:
the winning element may differ, its measure may not. -/
theorem pickGo_map_perm {α : Type} (f : α → ℚ) {l l' : List α} (h : l.Perm l') :
    (pickGo f none l).map f = (pickGo f none l').map f := by
  cases hl : pickGo f none l with
  | none =>
    have hnil : l = [] := (pickGo_none_iff f l).mp hl
    subst hnil
    have hnil' : l' = [] := h.symm.eq_nil
    subst hnil'
    rfl
  | some r =>
    cases hl' : pickGo f none l' with
    | none =>
      have hnil' : l' = [] := (pickGo_none_iff f l').mp hl'
      subst hnil'
      have hnil : l = [] := h.eq_nil
      subst hnil
      exact absurd hl (by simp [pickGo])
    | some r' =>
      have h1 := pickGo_first f l r hl
      have h2 := pickGo_first f l' r' hl'
      have hle : f r ≤ f r' := h1.le_all r' (h.mem_iff.mpr h2.mem)
      have hge : f r' ≤ f r := h2.le_all r (h.mem_iff.mp h1.mem)
      simp [le_antisymm hle hge]

/-- On a list of non-nil candidates the aggregator loop never panics and
computes exactly the strict-replacement selection. -/
theorem aggRun_map_some {D P : Type} :
    ∀ (l : List (ParkDistance D P)) (acc : Option (ParkDistance D P)),
      aggRun acc (l.map some) = Except.ok (pickGo ParkDistance.distance acc l) := by
  intro l
  induction l with
  | nil => intro acc; cases acc <;> rfl
  | cons x xs ih =>
    intro acc
    cases acc with
    | none => simpa [aggRun, pickGo] using ih (some x)
    | some n =>
      by_cases hlt : x.distance < n.distance <;>
        simpa [aggRun, pickGo, hlt] using ih _

/-- Feeding the aggregator only nil candidates keeps the running best nil and
never panics: the nil test short-circuits before the dereference. -/
theorem aggRun_all_none {D P : Type} :
    ∀ (l : List (Option (ParkDistance D P))), (∀ x ∈ l, x = none) →
      aggRun (none : Option (ParkDistance D P)) l = Except.ok none := by
  intro l
  induction l with
  | nil => intro _; rfl
  | cons x xs ih =>
    intro h
    have hx : x = none := h x (List.mem_cons_self x xs)
    subst hx
    simpa [aggRun] using ih (fun y hy => h y (List.mem_cons_of_mem none hy))

/-- If the aggregator loop completes with a non-nil best, that best's distance
is a lower bound for the starting best and for every non-nil candidate it
consumed. -/
theorem aggRun_le {D P : Type} :
    ∀ (l : List (Option (ParkDistance D P))) (acc : Option (ParkDistance D P))
      (r : ParkDistance D P), aggRun acc l = Except.ok (some r) →
        (∀ c, acc = some c → r.distance ≤ c.distance)
        ∧ (∀ o ∈ l, ∀ c, o = some c → r.distance ≤ c.distance) := by
  intro l
  induction l with
  | nil =>
    intro acc r h
    have hacc : acc = some r := by
      simpa [aggRun] using h
    subst hacc
    refine ⟨?_, ?_⟩
    · intro c hc
      injection hc with hc'
      subst hc'
      exact le_refl _
    · intro o ho; cases ho
  | cons x xs ih =>
    intro acc r h
    cases acc with
    | none =>
      have h' : aggRun x xs = Except.ok (some r) := h
      have hrec := ih x r h'
      refine ⟨?_, ?_⟩
      · intro c hc; exact Option.noConfusion hc
      · intro o ho c hc
        rcases List.mem_cons.mp ho with hox | hoxs
        · subst hox; exact hrec.1 c hc
        · exact hrec.2 o hoxs c hc
    | some n =>
      cases x with
      | none => exact absurd h (by simp [aggRun])
      | some pd =>
        by_cases hlt : pd.distance < n.distance
        · have h' : aggRun (some pd) xs = Except.ok (some r) := by
            simpa [aggRun, hlt] using h
          have hrec := ih (some pd) r h'
          have hrpd : r.distance ≤ pd.distance := hrec.1 pd rfl
          refine ⟨?_, ?_⟩
          · intro c hc
            injection hc with hc'
            subst hc'
            exact le_trans hrpd (le_of_lt hlt)
          · intro o ho c hc
            rcases List.mem_cons.mp ho with hox | hoxs
            · subst hox
              injection hc with hc'
              subst hc'
              exact hrpd
            · exact hrec.2 o hoxs c hc
        · have h' : aggRun (some n) xs = Except.ok (some r) := by
            simpa [aggRun, hlt] using h
          have hrec := ih (some n) r h'
          have hrn : r.distance ≤ n.distance := hrec.1 n rfl
          refine ⟨?_, ?_⟩
          · intro c hc
            injection hc with hc'
            subst hc'
            exact hrn
          · intro o ho c hc
            rcases List.mem_cons.mp ho with hox | hoxs
            · subst hox
              injection hc with hc'
              subst hc'
              exact le_trans hrn (le_of_not_lt hlt)
            · exact hrec.2 o hoxs c hc

/-- A list of defined optional values is the `some`-image of its contents. -/
theorem filterMap_id_map_some {α : Type} :
    ∀ (l : List (Option α)), (∀ x ∈ l, x.isSome) → (l.filterMap id).map some = l := by
  intro l
  induction l with
  | nil => intro _; rfl
  | cons x xs ih =>
    intro h
    cases x with
    | none => exact absurd (h none (List.mem_cons_self _ _)) (by simp)
    | some a =>
      have := ih (fun y hy => h y (List.mem_cons_of_mem _ hy))
      simpa [List.filterMap_cons] using this

/-- Concatenating per-worker images commutes with mapping over the
concatenated inputs. -/
theorem flatten_map_map {α β : Type} (f : α → β) :
    ∀ (L : List (List α)), (L.map (fun l => l.map f)).flatten = L.flatten.map f := by
  intro L
  induction L with
  | nil => rfl
  | cons l ls ih => simp only [List.map_cons, List.flatten_cons, List.map_append, ih]

/-- A worker's per-store send is nil exactly when the store had no successful
comparison. -/
theorem scanParks_none_iff {D P : Type} (dist : D → P → Option ℚ) (store : D)
    (parks : List P) :
    scanParks dist store parks = none ↔ successes dist store parks = [] := by
  rw [scanParks_eq_pick]
  constructor
  · intro h
    exact (pickGo_none_iff _ _).mp (Option.map_eq_none'.mp h)
  · intro h
    rw [h]
    rfl

/-- No successful comparison means every park's distance call failed (this
also covers the empty park list). -/
theorem successes_eq_nil_iff {D P : Type} (dist : D → P → Option ℚ) (store : D)
    (parks : List P) :
    successes dist store parks = [] ↔ ∀ p ∈ parks, dist store p = none := by
  simp [successes, List.filterMap_eq_nil_iff]

/-- Removing the failing parks up-front does not change the set of successful
comparisons. -/
theorem successes_filter_isSome {D P : Type} (dist : D → P → Option ℚ) (store : D) :
    ∀ parks : List P,
      successes dist store (parks.filter fun p => (dist store p).isSome)
        = successes dist store parks := by
  intro parks
  induction parks with
  | nil => rfl
  | cons p rest ih =>
    cases hd : dist store p with
    | none => simpa [successes, List.filter_cons, List.filterMap_cons, hd] using ih
    | some d => simpa [successes, List.filter_cons, List.filterMap_cons, hd] using ih

/-- Distance projection of a non-panicking outcome. -/
theorem resultDistance_ok {D P : Type} (o : Option (ParkDistance D P)) :
    resultDistance (Except.ok o) = Except.ok (o.map ParkDistance.distance) := by
  cases o <;> rfl

/-- Enqueuing into a buffer with enough remaining room succeeds and appends
all elements. -/
theorem enqueueAll_ok {D : Type} :
    ∀ (xs buf : List D) (cap : Nat), buf.length + xs.length ≤ cap →
      enqueueAll cap buf xs = some (buf ++ xs) := by
  intro xs
  induction xs with
  | nil => intro buf cap _; simp [enqueueAll]
  | cons x rest ih =>
    intro buf cap h
    have hlen : buf.length + (rest.length + 1) ≤ cap := by
      simpa [List.length_cons] using h
    have hlt : buf.length < cap := by omega
    have h2 : (buf ++ [x]).length + rest.length ≤ cap := by
      simp only [List.length_append, List.length_cons, List.length_nil]
      omega
    have hrec := ih (buf ++ [x]) cap h2
    have hstep : enqueueAll cap buf (x :: rest)
        = if buf.length < cap then enqueueAll cap (buf ++ [x]) rest else none := rfl
    rw [hstep, if_pos hlt, hrec, List.append_assoc, List.singleton_append]

/-- C6: when the worker emits a candidate for a store, the candidate is
tagged with that store and is the first minimum of the successful comparisons
in target order — every earlier successful target is strictly farther, every
later one is no closer.  Ties on the minimum distance therefore go to the
first target encountered in target-set order, and the per-source result is
deterministic for a fixed target ordering (the running best is replaced only
on strictly smaller distance). -/
theorem worker_tie_first {D P : Type} (dist : D → P → Option ℚ) (store : D)
    (parks : List P) (pd : ParkDistance D P)
    (h : scanParks dist store parks = some pd) :
    pd.store = store
    ∧ IsFirstMin Prod.snd (successes dist store parks) (pd.park, pd.distance) := by
  rw [scanParks_eq_pick] at h
  rcases Option.map_eq_some'.mp h with ⟨x, hx, hxx⟩
  have hfm := pickGo_first Prod.snd _ x hx
  subst hxx
  exact ⟨rfl, by simpa [withStore] using hfm⟩

/-- C6 witness: parks 1 and 2 tie at distance 3 (park 0 is at 5); the worker
emits park 1, the first of the tied targets. -/
theorem worker_tie_first_witness :
    scanParks distTie 7 [0, 1, 2] = some ⟨7, 1, (3 : ℚ)⟩
    ∧ (⟨7, 1, (3 : ℚ)⟩ : ParkDistance ℕ ℕ).store = 7
    ∧ IsFirstMin Prod.snd (successes distTie 7 [0, 1, 2]) (1, (3 : ℚ)) := by
  have h : scanParks distTie 7 [0, 1, 2] = some ⟨7, 1, (3 : ℚ)⟩ := by decide
  have hc := worker_tie_first distTie 7 [0, 1, 2] ⟨7, 1, (3 : ℚ)⟩ h
  exact ⟨h, hc.1, hc.2⟩

/-- C7: each failed distance computation is reported (the logged parks are
exactly the failing ones, in encounter order), the failing targets are
excluded from the source's minimum search without aborting the scan of the
remaining targets (the result equals the scan over the non-failing parks
alone), and the emitted minimum is correct over the successful comparisons
(it is a lower bound of all of them). -/
theorem failed_comparisons_skipped {D P : Type} (dist : D → P → Option ℚ)
    (store : D) (parks : List P) :
    scanErrors dist store parks = parks.filter (fun p => (dist store p).isNone)
    ∧ scanParks dist store parks
        = scanParks dist store (parks.filter (fun p => (dist store p).isSome))
    ∧ ∀ pd : ParkDistance D P, scanParks dist store parks = some pd →
        ∀ x ∈ successes dist store parks, pd.distance ≤ x.2 := by
  refine ⟨scanGo_snd dist store parks none, ?_, ?_⟩
  · rw [scanParks_eq_pick, scanParks_eq_pick, successes_filter_isSome]
  · intro pd h x hx
    rw [scanParks_eq_pick] at h
    rcases Option.map_eq_some'.mp h with ⟨y, hy, hyy⟩
    have hle := (pickGo_first Prod.snd _ y hy).le_all x hx
    subst hyy
    exact hle

/-- C7 witness: park 1's distance call fails and is logged; the scan result
equals the scan over parks [0, 2] alone, and the emitted distance 2 is a
lower bound of the successful comparison at park 2 (distance 4). -/
theorem failed_comparisons_skipped_witness :
    scanErrors distSkip 7 [0, 1, 2] = [1]
    ∧ scanParks distSkip 7 [0, 1, 2]
        = scanParks distSkip 7 ([0, 1, 2].filter (fun p => (distSkip 7 p).isSome))
    ∧ (⟨7, 0, (2 : ℚ)⟩ : ParkDistance ℕ ℕ).distance ≤ ((2 : ℕ), (4 : ℚ)).2 := by
  have h := failed_comparisons_skipped distSkip 7 [0, 1, 2]
  refine ⟨?_, h.2.1, h.2.2 ⟨7, 0, (2 : ℚ)⟩ (by decide) ((2 : ℕ), (4 : ℚ)) (by decide)⟩
  rw [h.1]
  decide

/-- C2 counterexample: with every distance call failing, the worker that
consumes store 7 against park list [0] has no successful comparison, yet it
still performs one send on the results channel (the nil marker) instead of
emitting nothing. -/
theorem worker_emits_nil_marker :
    successes failDist 7 [0] = [] ∧ nearestParksWorker failDist [0] [7] ≠ [] := by
  exact ⟨rfl, by decide⟩

/-- C2 (amended): for every source consumed the worker performs exactly one
send on the results channel — so at most one candidate pair per source — and
the sent value is nil (rather than nothing being emitted) precisely when no
distance comparison for that source succeeded. -/
theorem worker_one_send_per_source {D P : Type} (dist : D → P → Option ℚ)
    (parks : List P) (inputs : List D) :
    (nearestParksWorker dist parks inputs).length = inputs.length
    ∧ ∀ s : D, (scanParks dist s parks = none ↔ successes dist s parks = []) := by
  constructor
  · simp [nearestParksWorker]
  · intro s
    exact scanParks_none_iff dist s parks

/-- C8: when the aggregator completes with a candidate as its final answer,
that answer's distance is less than or equal to the distance of every
candidate pair received from the result channel (the running best is replaced
only on strictly smaller distance). -/
theorem final_answer_le_candidates {D P : Type}
    (received : List (Option (ParkDistance D P))) (pd : ParkDistance D P)
    (h : nearestPairRun received = Except.ok (some pd)) :
    ∀ o ∈ received, ∀ c : ParkDistance D P, o = some c → pd.distance ≤ c.distance :=
  (aggRun_le received none pd h).2

/-- C8 witness: from the candidates at distances 2 and 1 the aggregator
publishes the distance-1 pair, and its distance bounds the distance-2
candidate. -/
theorem final_answer_le_candidates_witness :
    nearestPairRun ([some ⟨0, 0, (2 : ℚ)⟩, some ⟨1, 1, (1 : ℚ)⟩] :
        List (Option (ParkDistance ℕ ℕ)))
      = Except.ok (some ⟨1, 1, (1 : ℚ)⟩)
    ∧ (⟨1, 1, (1 : ℚ)⟩ : ParkDistance ℕ ℕ).distance
        ≤ (⟨0, 0, (2 : ℚ)⟩ : ParkDistance ℕ ℕ).distance := by
  have h : nearestPairRun ([some ⟨0, 0, (2 : ℚ)⟩, some ⟨1, 1, (1 : ℚ)⟩] :
      List (Option (ParkDistance ℕ ℕ))) = Except.ok (some ⟨1, 1, (1 : ℚ)⟩) := by decide
  exact ⟨h, final_answer_le_candidates _ _ h (some ⟨0, 0, (2 : ℚ)⟩) (by decide)
    ⟨0, 0, (2 : ℚ)⟩ rfl⟩

/-- C9: the work queue is created with capacity equal to the number of
sources, so the capacity is ≥ the number of sources and the orchestrator's
enqueue loop completes every send without blocking, even in the worst case
where no worker has consumed anything yet. -/
theorem enqueue_never_blocks {D : Type} (stores : List D) :
    stores.length ≤ workQueueCapacity stores
    ∧ enqueueAll (workQueueCapacity stores) [] stores = some stores := by
  refine ⟨le_refl _, ?_⟩
  simpa using enqueueAll_ok stores [] (workQueueCapacity stores)
    (by simp [workQueueCapacity])

/-- C1 counterexample: with a distance function that fails on every park for
store 0 and puts store 1 at distance 1, splitting the two stores over two
workers can deliver the non-nil candidate before the nil marker; the
aggregator then dereferences the nil candidate and panics, producing no final
answer at all, while the sequential reference returns the distance-1 pair.
The received list here is exactly the concatenated sends of the two workers
for the cover [[1], [0]] of the store set (a permutation of the stores). -/
theorem pipeline_interleaving_panic :
    ([some ⟨1, 5, (1 : ℚ)⟩, none] : List (Option (ParkDistance ℕ ℕ)))
        = (([[1], [0]] : List (List ℕ)).map (nearestParksWorker distOneFails [5])).flatten
    ∧ (([[1], [0]] : List (List ℕ)).flatten.Perm [0, 1])
    ∧ nearestPairRun ([some ⟨1, 5, (1 : ℚ)⟩, none] : List (Option (ParkDistance ℕ ℕ)))
        = Except.error ()
    ∧ sequentialMain distOneFails [5] [0, 1] = Except.ok (some ⟨1, 5, (1 : ℚ)⟩) := by
  exact ⟨by decide, by decide, by decide, by decide⟩

/-- C1 (amended): provided every source has at least one successful distance
comparison (so no worker ever sends a nil candidate), the final answer's
distance of the concurrent pipeline equals that of the exhaustive sequential
reference scan, for every number of workers, every assignment of the enqueued
sources to workers, and every interleaving of the workers' sends on the
result channel.  Worker counts 1, 5 and 30 are the special cases where the
assignment has 1, 5 or 30 blocks. -/
theorem pipeline_matches_sequential {D P : Type} (dist : D → P → Option ℚ)
    (parks : List P) (stores : List D) (assignment : List (List D))
    (received : List (Option (ParkDistance D P)))
    (hall : ∀ s ∈ stores, (scanParks dist s parks).isSome)
    (hcover : assignment.flatten.Perm stores)
    (hrecv : received.Perm ((assignment.map (nearestParksWorker dist parks)).flatten)) :
    resultDistance (nearestPairRun received)
      = resultDistance (sequentialMain dist parks stores) := by
  have hjoin : ((assignment.map (nearestParksWorker dist parks)).flatten)
      = assignment.flatten.map (fun s => scanParks dist s parks) := by
    have hw : nearestParksWorker dist parks
        = fun inputs : List D => inputs.map (fun s => scanParks dist s parks) := rfl
    rw [hw]
    exact flatten_map_map _ assignment
  have hperm : received.Perm (stores.map (fun s => scanParks dist s parks)) := by
    rw [hjoin] at hrecv
    exact hrecv.trans (hcover.map _)
  have hallr : ∀ x ∈ received, x.isSome := by
    intro x hx
    rcases List.mem_map.mp (hperm.mem_iff.mp hx) with ⟨s, hs, rfl⟩
    exact hall s hs
  have hallm : ∀ x ∈ stores.map (fun s => scanParks dist s parks), x.isSome := by
    intro x hx
    rcases List.mem_map.mp hx with ⟨s, hs, rfl⟩
    exact hall s hs
  have hr : (received.filterMap id).map some = received :=
    filterMap_id_map_some received hallr
  have hm : ((stores.map (fun s => scanParks dist s parks)).filterMap id).map some
      = stores.map (fun s => scanParks dist s parks) :=
    filterMap_id_map_some _ hallm
  have hpermcore : (received.filterMap id).Perm
      ((stores.map (fun s => scanParks dist s parks)).filterMap id) :=
    hperm.filterMap id
  have h1 : nearestPairRun received
      = Except.ok (pickGo ParkDistance.distance none (received.filterMap id)) := by
    have hbase : aggRun none ((received.filterMap id).map some)
        = Except.ok (pickGo ParkDistance.distance none (received.filterMap id)) :=
      aggRun_map_some _ none
    rw [hr] at hbase
    exact hbase
  have h2 : sequentialMain dist parks stores
      = Except.ok (pickGo ParkDistance.distance none
          ((stores.map (fun s => scanParks dist s parks)).filterMap id)) := by
    have hbase : aggRun none
          (((stores.map (fun s => scanParks dist s parks)).filterMap id).map some)
        = Except.ok (pickGo ParkDistance.distance none
            ((stores.map (fun s => scanParks dist s parks)).filterMap id)) :=
      aggRun_map_some _ none
    rw [hm] at hbase
    exact hbase
  rw [h1, h2, resultDistance_ok, resultDistance_ok]
  exact congrArg Except.ok (pickGo_map_perm ParkDistance.distance hpermcore)

/-- C1 witness: stores 0 and 1 against park 9 under a total distance stub,
split over two workers with the sends received in reversed store order; both
runs produce the distance-1 final answer. -/
theorem pipeline_matches_sequential_witness :
    resultDistance (nearestPairRun
        ([some ⟨1, 9, (2 : ℚ)⟩, some ⟨0, 9, (1 : ℚ)⟩] : List (Option (ParkDistance ℕ ℕ))))
      = resultDistance (sequentialMain distTotal [9] [0, 1]) :=
  pipeline_matches_sequential distTotal [9] [0, 1] [[1], [0]]
    [some ⟨1, 9, (2 : ℚ)⟩, some ⟨0, 9, (1 : ℚ)⟩] (by decide) (by decide) (by decide)

/-- C3: with an empty park set every worker's scan yields nil for every
consumed store, so only nil markers reach the aggregator; the nil test
short-circuits the dereference, the aggregator publishes nil — the explicit
"no result" value — but the final print step of main then dereferences the
nil answer (`printStore(nearest.store)`), so the program panics instead of
reporting "no result". -/
theorem empty_parks_no_result_then_crash {D P : Type} (dist : D → P → Option ℚ)
    (stores : List D) (received : List (Option (ParkDistance D P)))
    (hrecv : received.Perm (stores.map (fun s => scanParks dist s ([] : List P)))) :
    nearestPairRun received = Except.ok none
    ∧ finalOutput (none : Option (ParkDistance D P)) = Except.error () := by
  have hr : ∀ x ∈ received, x = none := by
    intro x hx
    rcases List.mem_map.mp (hrecv.mem_iff.mp hx) with ⟨s, _, rfl⟩
    rfl
  exact ⟨aggRun_all_none received hr, rfl⟩

/-- C3 witness: one store, no parks; the aggregator publishes nil and the
final print step dereferences it. -/
theorem empty_parks_no_result_then_crash_witness :
    nearestPairRun ([none] : List (Option (ParkDistance ℕ ℕ))) = Except.ok none
    ∧ finalOutput (none : Option (ParkDistance ℕ ℕ)) = Except.error () :=
  empty_parks_no_result_then_crash failDist [3] [none] (by decide)

/-- C4 counterexample: the worker launch loop runs a fixed `workers = 30`
iterations whatever the source list, so with an empty source set 30 workers
are still started, not zero as the claim states. -/
theorem workers_started_nonzero :
    workersStarted ([] : List ℕ) = 30 ∧ workersStarted ([] : List ℕ) ≠ 0 := by
  exact ⟨rfl, by decide⟩

/-- C4 (amended): with an empty source set the fixed pool of 30 workers is
still started; no worker ever sends a value (each consumes nothing), the
aggregator receives nothing and publishes nil — the "no result" value — and
the final print step of main then dereferences that nil answer instead of
printing a result. -/
theorem empty_sources_run {D P : Type} (dist : D → P → Option ℚ) (parks : List P) :
    workersStarted ([] : List D) = workers
    ∧ nearestParksWorker dist parks ([] : List D) = []
    ∧ nearestPairRun ([] : List (Option (ParkDistance D P))) = Except.ok none
    ∧ finalOutput (none : Option (ParkDistance D P)) = Except.error () :=
  ⟨rfl, rfl, rfl, rfl⟩

/-- C5: in every trace the Go synchronization primitives allow — each worker's
deferred done signal fired exactly once after its sends, and the results
channel closed only after the blocking wait saw all done signals — every send
on the results channel precedes the close of the results channel: no worker
can write to the channel after it is closed. -/
theorem no_send_after_close {n : Nat} (tr : List (WEvent n)) (h : ValidTrace tr) :
    ∀ (i j : Fin tr.length) (w : Fin n),
      tr.get i = WEvent.send w → tr.get j = WEvent.closeResults → i < j := by
  obtain ⟨hdone, hsd, hcd⟩ := h
  intro i j w hi hj
  obtain ⟨k, hk, _⟩ := hdone w
  exact lt_trans (hsd i k w hi hk) (hcd j k w hj hk)

/-- The one-worker trace send–done–close satisfies the synchronization
constraints. -/
theorem trace0_valid : ValidTrace trace0 := by
  refine ⟨by decide, by decide, by decide⟩

/-- C5 witness: in the one-worker trace send–done–close, the send (index 0)
precedes the close (index 2). -/
theorem no_send_after_close_witness : ValidTrace trace0 ∧ idx0 < idx2 :=
  ⟨trace0_valid, no_send_after_close trace0 trace0_valid idx0 idx2 0 rfl rfl⟩

/-- C10: for every assignment of the enqueued stores to workers (each store
consumed by exactly one worker), the total number of values sent on the
results channel equals the number of enqueued sources — each consumed source
causes exactly one send — and the per-source value is the nil marker exactly
when the park list is empty or every distance call for that source failed,
and a (non-nil) candidate pair otherwise. -/
theorem one_value_per_source {D P : Type} (dist : D → P → Option ℚ) (parks : List P)
    (stores : List D) (assignment : List (List D))
    (hcover : assignment.flatten.Perm stores) :
    ((assignment.map (nearestParksWorker dist parks)).map List.length).sum = stores.length
    ∧ ∀ s : D, (scanParks dist s parks = none ↔ ∀ p ∈ parks, dist s p = none) := by
  constructor
  · have h1 : (assignment.map (nearestParksWorker dist parks)).map List.length
        = assignment.map List.length := by
      rw [List.map_map]
      apply List.map_congr_left
      intro l _
      simp [nearestParksWorker]
    rw [h1, ← List.length_flatten]
    exact hcover.length_eq
  · intro s
    exact (scanParks_none_iff dist s parks).trans (successes_eq_nil_iff dist s parks)

/-- C10 witness: stores [2, 0, 1] split as [[0], [1, 2]] over two workers give
three sends in total. -/
theorem one_value_per_source_witness :
    ((([[0], [1, 2]] : List (List ℕ)).map (nearestParksWorker distTotal [9])).map
        List.length).sum = ([2, 0, 1] : List ℕ).length :=
  (one_value_per_source distTotal [9] [2, 0, 1] [[0], [1, 2]] (by decide)).1

end Bunny
